import Mathlib

/-!
# Verification of the hyperbolic-geometry core of sage-flatsurf

This file gives a shallow embedding of the convex-set machinery of
`flatsurf/geometry/hyperbolic.py` over the exact field `F = ℚ` and proves
properties of it.  All geometric objects are stored in the Klein model, as in
the Python source:

* a geodesic is a triple `(a, b, c)` describing the chord `a + b*x + c*y = 0`
  of the unit disk, valid when `b² + c² > a²`;
* a half space wraps the geodesic bounding it and denotes `a + b*x + c*y ≥ 0`;
* a point is a coordinate pair `(x, y)` with `x² + y² ≤ 1`;
* the square root of the base field is modelled twice, matching the two ways
  the source calls it: `ratSqrt` for `sqrt(extend=False)` (partial — may
  fail; used by `start`/`end`) and `sqrtExtend` for the plain `.sqrt()`
  default `extend=True` (total — may land in a quadratic extension; used by
  `coordinates`).
-/

/-- A geodesic of the hyperbolic plane, stored as the coefficients of its
Klein-model equation `a + b*x + c*y = 0` (class `HyperbolicGeodesic`,
fields `_a`, `_b`, `_c`). -/
structure HyperbolicGeodesic where
  a : ℚ
  b : ℚ
  c : ℚ
deriving DecidableEq

/-- The validity check of `HyperbolicGeodesic._is_valid`: the line is a chord
of the unit disk iff `b² + c² > a²`. -/
def HyperbolicGeodesic.isValid (g : HyperbolicGeodesic) : Prop :=
  g.a * g.a < g.b * g.b + g.c * g.c

instance (g : HyperbolicGeodesic) : Decidable g.isValid :=
  inferInstanceAs (Decidable (g.a * g.a < g.b * g.b + g.c * g.c))

/-- A closed half space, wrapping the geodesic on its boundary
(class `HyperbolicHalfSpace`, field `_geodesic`).  It denotes the region
`a + b*x + c*y ≥ 0` in the Klein model. -/
structure HyperbolicHalfSpace where
  geodesic : HyperbolicGeodesic
deriving DecidableEq

@[simp] def HyperbolicHalfSpace.a (h : HyperbolicHalfSpace) : ℚ := h.geodesic.a

@[simp] def HyperbolicHalfSpace.b (h : HyperbolicHalfSpace) : ℚ := h.geodesic.b

@[simp] def HyperbolicHalfSpace.c (h : HyperbolicHalfSpace) : ℚ := h.geodesic.c

def HyperbolicHalfSpace.isValid (h : HyperbolicHalfSpace) : Prop :=
  h.geodesic.isValid

instance (h : HyperbolicHalfSpace) : Decidable h.isValid :=
  inferInstanceAs (Decidable (h.geodesic.a * h.geodesic.a <
    h.geodesic.b * h.geodesic.b + h.geodesic.c * h.geodesic.c))

/-- The sign function of the base ring elements (Sage `.sign()`). -/
def ratSign (x : ℚ) : ℤ :=
  if 0 < x then 1 else if x < 0 then -1 else 0

/-- The classification of a Klein-model normal vector `(b, c)` used by
`HyperbolicHalfSpace._normal_lt` (inner function `normal_points_left`). -/
def normalPointsLeft (b c : ℚ) : Bool :=
  decide (b < 0 ∨ (b = 0 ∧ c < 0))

/-- The slope comparison value `sign(b*B) * sign(c*B - C*b)` of
`HyperbolicHalfSpace._normal_lt`. -/
def slopeCmp (h k : HyperbolicHalfSpace) : ℤ :=
  ratSign (h.b * k.b) * ratSign (h.c * k.b - k.c * h.b)

/-- The inclusion ("offset") comparison of `HyperbolicHalfSpace._normal_lt`,
used when the two normals are parallel: `sign(c*C) * sign(a*C - A*c)` when
`c*C ≠ 0` and otherwise `sign(b*B) * sign(a*B - A*b)`. -/
def offsetCmp (h k : HyperbolicHalfSpace) : ℤ :=
  if h.c * k.c ≠ 0 then ratSign (h.c * k.c) * ratSign (h.a * k.c - k.a * h.c)
  else ratSign (h.b * k.b) * ratSign (h.a * k.b - k.a * h.b)

/-- Embeds `HyperbolicHalfSpace._normal_lt`: the strict comparison of half spaces by
(1) whether the normal points left, (2) the slope of the normal, and
(3) inclusion, following the Python branch structure literally.  The Python
early-returns `B == 0` when exactly one of the normals is vertical. -/
def normalLt (h k : HyperbolicHalfSpace) : Bool :=
  if normalPointsLeft h.b h.c ≠ normalPointsLeft k.b k.c then
    normalPointsLeft h.b h.c
  else if h.b * k.b = 0 then
    if h.b = k.b then decide (offsetCmp h k < 0)
    else decide (k.b = 0)
  else if slopeCmp h k = 0 then decide (offsetCmp h k < 0)
  else decide (slopeCmp h k < 0)

/-- Oriented equality of geodesics, following
`HyperbolicGeodesic._richcmp_` (op_EQ): the coefficient triples must be
proportional with a positive factor. -/
def geodEq (g k : HyperbolicGeodesic) : Bool :=
  if g.b ≠ 0 then
    decide (ratSign g.b = ratSign k.b ∧ g.a * k.b = k.a * g.b ∧ g.c * k.b = k.c * g.b)
  else
    decide (ratSign g.c = ratSign k.c ∧ g.a * k.c = k.a * g.c ∧ g.b * k.c = k.b * g.c)

section KeyOrder

/-!
The comparison `normalLt` is, on valid half spaces, the strict lexicographic
order induced by a four-component key: the class of the normal, verticality of
the normal, the slope of the normal, and the offset of the boundary line in
the direction of the normal.  This is the tool used to establish the order
properties of `normalLt` and the correctness of the merge sort.
-/

/-- The key of a half space for the `normalLt` order. -/
def hsKey (h : HyperbolicHalfSpace) : ℚ × ℚ × ℚ × ℚ :=
  ( if normalPointsLeft h.b h.c then 0 else 1,
    if h.b = 0 then 1 else 0,
    if h.b = 0 then 0 else h.c / h.b,
    if h.c = 0 then h.a / h.b else h.a / h.c )

/-- Strict lexicographic comparison of keys. -/
def keyLt (p q : ℚ × ℚ × ℚ × ℚ) : Prop :=
  p.1 < q.1 ∨ (p.1 = q.1 ∧
    (p.2.1 < q.2.1 ∨ (p.2.1 = q.2.1 ∧
      (p.2.2.1 < q.2.2.1 ∨ (p.2.2.1 = q.2.2.1 ∧ p.2.2.2 < q.2.2.2)))))

theorem keyLt_irrefl (p : ℚ × ℚ × ℚ × ℚ) : ¬ keyLt p p := by
  unfold keyLt
  rintro (h | ⟨-, h | ⟨-, h | ⟨-, h⟩⟩⟩) <;> exact lt_irrefl _ h

theorem keyLt_trans {p q r : ℚ × ℚ × ℚ × ℚ} :
    keyLt p q → keyLt q r → keyLt p r := by
  unfold keyLt
  rintro (h₁ | ⟨e₁, h₁ | ⟨e₁', h₁ | ⟨e₁'', h₁⟩⟩⟩) (h₂ | ⟨e₂, h₂ | ⟨e₂', h₂ | ⟨e₂'', h₂⟩⟩⟩)
  all_goals first
    | exact Or.inl (by linarith)
    | exact Or.inr ⟨by linarith, Or.inl (by linarith)⟩
    | exact Or.inr ⟨by linarith, Or.inr ⟨by linarith, Or.inl (by linarith)⟩⟩
    | exact Or.inr ⟨by linarith, Or.inr ⟨by linarith, Or.inr ⟨by linarith, by linarith⟩⟩⟩

theorem keyLt_asymm {p q : ℚ × ℚ × ℚ × ℚ} : keyLt p q → ¬ keyLt q p := by
  intro h₁ h₂
  exact keyLt_irrefl p (keyLt_trans h₁ h₂)

theorem keyLt_trichotomy (p q : ℚ × ℚ × ℚ × ℚ) :
    keyLt p q ∨ p = q ∨ keyLt q p := by
  obtain ⟨p₁, p₂, p₃, p₄⟩ := p
  obtain ⟨q₁, q₂, q₃, q₄⟩ := q
  unfold keyLt
  rcases lt_trichotomy p₁ q₁ with h₁ | h₁ | h₁
  · exact Or.inl (Or.inl h₁)
  · rcases lt_trichotomy p₂ q₂ with h₂ | h₂ | h₂
    · exact Or.inl (Or.inr ⟨h₁, Or.inl h₂⟩)
    · rcases lt_trichotomy p₃ q₃ with h₃ | h₃ | h₃
      · exact Or.inl (Or.inr ⟨h₁, Or.inr ⟨h₂, Or.inl h₃⟩⟩)
      · rcases lt_trichotomy p₄ q₄ with h₄ | h₄ | h₄
        · exact Or.inl (Or.inr ⟨h₁, Or.inr ⟨h₂, Or.inr ⟨h₃, h₄⟩⟩⟩)
        · exact Or.inr (Or.inl (by simp [h₁, h₂, h₃, h₄]))
        · exact Or.inr (Or.inr (Or.inr ⟨h₁.symm, Or.inr ⟨h₂.symm, Or.inr ⟨h₃.symm, h₄⟩⟩⟩))
      · exact Or.inr (Or.inr (Or.inr ⟨h₁.symm, Or.inr ⟨h₂.symm, Or.inl h₃⟩⟩))
    · exact Or.inr (Or.inr (Or.inr ⟨h₁.symm, Or.inl h₂⟩))
  · exact Or.inr (Or.inr (Or.inl h₁))

theorem ratSign_lt_zero_iff {x : ℚ} : ratSign x < 0 ↔ x < 0 := by
  unfold ratSign; split_ifs with h₁ h₂ <;> simp <;> linarith

theorem ratSign_eq_zero_iff {x : ℚ} : ratSign x = 0 ↔ x = 0 := by
  unfold ratSign; split_ifs with h₁ h₂ <;> simp <;> linarith

theorem ratSign_of_pos {x : ℚ} (h : 0 < x) : ratSign x = 1 := by
  unfold ratSign; rw [if_pos h]

theorem div_lt_div_iff_mul_pos {x y u v : ℚ} (huv : 0 < u * v) :
    x / u < y / v ↔ x * v - y * u < 0 := by
  have hu : u ≠ 0 := fun h => by simp [h] at huv
  have hv : v ≠ 0 := fun h => by simp [h] at huv
  have key : x / u - y / v = (x * v - y * u) / (u * v) := by
    field_simp; ring
  constructor
  · intro hlt
    have : x / u - y / v < 0 := by linarith
    rw [key, div_neg_iff] at this
    rcases this with ⟨h₁, h₂⟩ | ⟨h₁, h₂⟩
    · linarith
    · exact h₁
  · intro hlt
    have : (x * v - y * u) / (u * v) < 0 := div_neg_of_neg_of_pos hlt huv
    rw [← key] at this
    linarith

theorem div_eq_div_iff_mul_pos {x y u v : ℚ} (huv : 0 < u * v) :
    x / u = y / v ↔ x * v - y * u = 0 := by
  have hu : u ≠ 0 := fun h => by simp [h] at huv
  have hv : v ≠ 0 := fun h => by simp [h] at huv
  rw [div_eq_div_iff hu hv]
  constructor <;> intro h <;> linarith

/-- The comparison pattern `sign(u*v) * sign(x*v - y*u)` shared by the slope
and the offset comparisons of `_normal_lt`, rewritten as a comparison of the
quotients `x/u` and `y/v` when `u` and `v` have the same sign. -/
theorem signCmp_lt_iff {x y u v : ℚ} (huv : 0 < u * v) :
    ratSign (u * v) * ratSign (x * v - y * u) < 0 ↔ x / u < y / v := by
  rw [ratSign_of_pos huv, one_mul, ratSign_lt_zero_iff, div_lt_div_iff_mul_pos huv]

theorem signCmp_eq_zero_iff {x y u v : ℚ} (huv : 0 < u * v) :
    ratSign (u * v) * ratSign (x * v - y * u) = 0 ↔ x / u = y / v := by
  rw [ratSign_of_pos huv, one_mul, ratSign_eq_zero_iff, div_eq_div_iff_mul_pos huv]

theorem normalPointsLeft_iff {b c : ℚ} :
    normalPointsLeft b c = true ↔ b < 0 ∨ (b = 0 ∧ c < 0) := by
  simp [normalPointsLeft]

theorem normalPointsLeft_false_iff {b c : ℚ} :
    normalPointsLeft b c = false ↔ (0 < b ∨ (b = 0 ∧ 0 ≤ c)) := by
  simp only [normalPointsLeft, decide_eq_false_iff_not, not_or, not_and, not_lt]
  constructor
  · rintro ⟨h₁, h₂⟩
    rcases lt_or_eq_of_le h₁ with h | h
    · exact Or.inl h
    · exact Or.inr ⟨h.symm, h₂ h.symm⟩
  · rintro (h | ⟨h₁, h₂⟩)
    · exact ⟨le_of_lt h, fun he => absurd he (by linarith)⟩
    · exact ⟨le_of_eq h₁.symm, fun _ => h₂⟩

/-- Same class and both normals non-vertical forces `b` and `B` to have the
same sign. -/
theorem same_class_bB_pos {b c B C : ℚ} (hb : b ≠ 0) (hB : B ≠ 0)
    (hcl : normalPointsLeft b c = normalPointsLeft B C) : 0 < b * B := by
  cases hpl : normalPointsLeft b c with
  | true =>
    rw [hpl] at hcl
    rw [normalPointsLeft_iff] at hpl
    rw [eq_comm, normalPointsLeft_iff] at hcl
    have h₁ : b < 0 := by
      rcases hpl with h | ⟨h, -⟩
      · exact h
      · exact absurd h hb
    have h₂ : B < 0 := by
      rcases hcl with h | ⟨h, -⟩
      · exact h
      · exact absurd h hB
    exact mul_pos_of_neg_of_neg h₁ h₂
  | false =>
    rw [hpl] at hcl
    rw [normalPointsLeft_false_iff] at hpl
    rw [eq_comm, normalPointsLeft_false_iff] at hcl
    have h₁ : 0 < b := by
      rcases hpl with h | ⟨h, -⟩
      · exact h
      · exact absurd h hb
    have h₂ : 0 < B := by
      rcases hcl with h | ⟨h, -⟩
      · exact h
      · exact absurd h hB
    exact mul_pos h₁ h₂

/-- Same class and both normals vertical forces `c` and `C` to have the same
sign (validity excludes the zero normal). -/
theorem same_class_cC_pos {b c B C : ℚ} (hb : b = 0) (hB : B = 0)
    (hc : c ≠ 0) (hC : C ≠ 0)
    (hcl : normalPointsLeft b c = normalPointsLeft B C) : 0 < c * C := by
  cases hpl : normalPointsLeft b c with
  | true =>
    rw [hpl] at hcl
    rw [normalPointsLeft_iff] at hpl
    rw [eq_comm, normalPointsLeft_iff] at hcl
    have h₁ : c < 0 := by
      rcases hpl with h | ⟨-, h⟩
      · rw [hb] at h; exact absurd h (lt_irrefl 0)
      · exact h
    have h₂ : C < 0 := by
      rcases hcl with h | ⟨-, h⟩
      · rw [hB] at h; exact absurd h (lt_irrefl 0)
      · exact h
    exact mul_pos_of_neg_of_neg h₁ h₂
  | false =>
    rw [hpl] at hcl
    rw [normalPointsLeft_false_iff] at hpl
    rw [eq_comm, normalPointsLeft_false_iff] at hcl
    have h₁ : 0 < c := by
      rcases hpl with h | ⟨-, h⟩
      · rw [hb] at h; exact absurd h (lt_irrefl 0)
      · exact lt_of_le_of_ne h (Ne.symm hc)
    have h₂ : 0 < C := by
      rcases hcl with h | ⟨-, h⟩
      · rw [hB] at h; exact absurd h (lt_irrefl 0)
      · exact lt_of_le_of_ne h (Ne.symm hC)
    exact mul_pos h₁ h₂

/-- In a slope tie between non-vertical normals, `c ≠ 0` forces `C ≠ 0` and
`c * C > 0`. -/
theorem tie_cC_pos {b c B C : ℚ} (hbB : 0 < b * B)
    (htie : c * B - C * b = 0) (hc : c ≠ 0) : C ≠ 0 ∧ 0 < c * C := by
  have hb : b ≠ 0 := fun h => by simp [h] at hbB
  have hB : B ≠ 0 := fun h => by simp [h] at hbB
  have hCb : C * b = c * B := by linarith
  have hC : C ≠ 0 := by
    intro h0
    rw [h0, zero_mul] at hCb
    rcases mul_eq_zero.mp hCb.symm with h | h
    · exact hc h
    · exact hB h
  have hsq : 0 < (c * B) * (c * B) :=
    mul_self_pos.mpr (mul_ne_zero hc hB)
  have hprod : (c * C) * (b * B) = (c * B) * (c * B) := by
    calc (c * C) * (b * B) = (C * b) * (c * B) := by ring
    _ = (c * B) * (c * B) := by rw [hCb]
  refine ⟨hC, ?_⟩
  nlinarith [hbB, hsq, hprod]

/-- In a slope tie between non-vertical normals, `c = 0` forces `C = 0`. -/
theorem tie_c_zero {b c B C : ℚ} (hbB : 0 < b * B)
    (htie : c * B - C * b = 0) (hc : c = 0) : C = 0 := by
  have hb : b ≠ 0 := fun h => by simp [h] at hbB
  rw [hc, zero_mul] at htie
  have : C * b = 0 := by linarith
  rcases mul_eq_zero.mp this with h | h
  · exact h
  · exact absurd h hb

/-- A valid half space has a nonzero normal vector. -/
theorem isValid_normal_ne {h : HyperbolicHalfSpace} (hv : h.isValid) :
    h.b ≠ 0 ∨ h.c ≠ 0 := by
  by_contra hcon
  push_neg at hcon
  obtain ⟨h₁, h₂⟩ := hcon
  unfold HyperbolicHalfSpace.isValid HyperbolicGeodesic.isValid at hv
  simp only [HyperbolicHalfSpace.b, HyperbolicHalfSpace.c] at h₁ h₂
  rw [h₁, h₂] at hv
  nlinarith [mul_self_nonneg h.geodesic.a]

/-- On valid half spaces, `normalLt` is exactly the strict lexicographic
order of the keys. -/
theorem normalLt_iff_keyLt {h k : HyperbolicHalfSpace}
    (hh : h.isValid) (hk : k.isValid) :
    normalLt h k = true ↔ keyLt (hsKey h) (hsKey k) := by
  have hbc := isValid_normal_ne hh
  have hBC := isValid_normal_ne hk
  obtain ⟨⟨a, b, c⟩⟩ := h
  obtain ⟨⟨A, B, C⟩⟩ := k
  simp only [HyperbolicHalfSpace.a, HyperbolicHalfSpace.b, HyperbolicHalfSpace.c] at hbc hBC ⊢
  by_cases hcl : normalPointsLeft b c = normalPointsLeft B C
  · -- Same class: the first key components agree.
    rw [normalLt, if_neg (by simp [hcl])]
    simp only [HyperbolicHalfSpace.a, HyperbolicHalfSpace.b, HyperbolicHalfSpace.c]
    by_cases hb0 : b = 0 <;> by_cases kb0 : B = 0
    · -- both normals vertical
      have hc0 : c ≠ 0 := by
        rcases hbc with hx | hx
        · exact absurd hb0 hx
        · exact hx
      have kc0 : C ≠ 0 := by
        rcases hBC with hx | hx
        · exact absurd kb0 hx
        · exact hx
      have hcC : 0 < c * C := same_class_cC_pos hb0 kb0 hc0 kc0 hcl
      rw [if_pos (by rw [hb0, kb0, mul_zero]), if_pos (hb0.trans kb0.symm)]
      rw [offsetCmp]
      simp only [HyperbolicHalfSpace.a, HyperbolicHalfSpace.b, HyperbolicHalfSpace.c]
      rw [if_pos (ne_of_gt hcC)]
      simp only [decide_eq_true_eq]
      rw [signCmp_lt_iff hcC]
      simp only [keyLt, hsKey, HyperbolicHalfSpace.a, HyperbolicHalfSpace.b,
        HyperbolicHalfSpace.c]
      simp only [hcl]
      simp [hb0, kb0, hc0, kc0]
    · -- h vertical, k not: the Python early-returns `B == 0`, i.e. `false`.
      rw [if_pos (by rw [hb0, zero_mul]), if_neg (by rw [hb0]; exact Ne.symm kb0)]
      simp only [decide_eq_true_eq]
      simp only [keyLt, hsKey, HyperbolicHalfSpace.a, HyperbolicHalfSpace.b,
        HyperbolicHalfSpace.c]
      simp only [hcl]
      simp [hb0, kb0]
    · -- k vertical, h not: the Python early-returns `B == 0`, i.e. `true`.
      rw [if_pos (by rw [kb0, mul_zero]), if_neg (by rw [kb0]; exact hb0)]
      simp only [decide_eq_true_eq]
      simp only [keyLt, hsKey, HyperbolicHalfSpace.a, HyperbolicHalfSpace.b,
        HyperbolicHalfSpace.c]
      simp only [hcl]
      simp [hb0, kb0]
    · -- both normals non-vertical: compare by slope, then by offset.
      have hbB : 0 < b * B := same_class_bB_pos hb0 kb0 hcl
      rw [if_neg (ne_of_gt hbB)]
      by_cases hsl : slopeCmp ⟨⟨a, b, c⟩⟩ ⟨⟨A, B, C⟩⟩ = 0
      · have htie : c * B - C * b = 0 := by
          rw [slopeCmp] at hsl
          simp only [HyperbolicHalfSpace.a, HyperbolicHalfSpace.b,
            HyperbolicHalfSpace.c] at hsl
          rw [ratSign_of_pos hbB, one_mul, ratSign_eq_zero_iff] at hsl
          exact hsl
        have hkey3 : c / b = C / B := (div_eq_div_iff_mul_pos hbB).mpr htie
        rw [if_pos hsl]
        simp only [decide_eq_true_eq]
        by_cases hc0 : c = 0
        · have kc0 : C = 0 := tie_c_zero hbB htie hc0
          rw [offsetCmp]
          simp only [HyperbolicHalfSpace.a, HyperbolicHalfSpace.b,
            HyperbolicHalfSpace.c]
          rw [if_neg (by rw [hc0, zero_mul]; simp)]
          rw [signCmp_lt_iff hbB]
          simp only [keyLt, hsKey, HyperbolicHalfSpace.a, HyperbolicHalfSpace.b,
            HyperbolicHalfSpace.c]
          simp only [hcl]
          simp [hb0, kb0, hc0, kc0]
        · obtain ⟨kc0, hcC⟩ := tie_cC_pos hbB htie hc0
          rw [offsetCmp]
          simp only [HyperbolicHalfSpace.a, HyperbolicHalfSpace.b,
            HyperbolicHalfSpace.c]
          rw [if_pos (ne_of_gt hcC)]
          rw [signCmp_lt_iff hcC]
          simp only [keyLt, hsKey, HyperbolicHalfSpace.a, HyperbolicHalfSpace.b,
            HyperbolicHalfSpace.c]
          simp only [hcl]
          simp [hb0, kb0, hc0, kc0, hkey3]
      · have hkey3 : c / b ≠ C / B := by
          intro he
          refine hsl ?_
          rw [slopeCmp]
          simp only [HyperbolicHalfSpace.a, HyperbolicHalfSpace.b,
            HyperbolicHalfSpace.c]
          rw [ratSign_of_pos hbB, one_mul, ratSign_eq_zero_iff]
          exact (div_eq_div_iff_mul_pos hbB).mp he
        rw [if_neg hsl]
        simp only [decide_eq_true_eq]
        rw [slopeCmp]
        simp only [HyperbolicHalfSpace.a, HyperbolicHalfSpace.b,
          HyperbolicHalfSpace.c]
        rw [signCmp_lt_iff hbB]
        simp only [keyLt, hsKey, HyperbolicHalfSpace.a, HyperbolicHalfSpace.b,
          HyperbolicHalfSpace.c]
        simp only [hcl]
        simp [hb0, kb0, hkey3]
  · -- Different classes: the left-pointing one is smaller.
    rw [normalLt, if_pos (by simp [hcl])]
    simp only [HyperbolicHalfSpace.a, HyperbolicHalfSpace.b, HyperbolicHalfSpace.c]
    cases hL : normalPointsLeft b c <;> cases hK : normalPointsLeft B C
    · exact absurd (hL.trans hK.symm) hcl
    · simp only [keyLt, hsKey, HyperbolicHalfSpace.a, HyperbolicHalfSpace.b,
        HyperbolicHalfSpace.c, hL, hK]
      simp
    · simp only [keyLt, hsKey, HyperbolicHalfSpace.a, HyperbolicHalfSpace.b,
        HyperbolicHalfSpace.c, hL, hK]
      norm_num
    · exact absurd (hL.trans hK.symm) hcl

theorem normalLt_eq_false_iff {h k : HyperbolicHalfSpace}
    (hh : h.isValid) (hk : k.isValid) :
    normalLt h k = false ↔ ¬ keyLt (hsKey h) (hsKey k) := by
  rw [← normalLt_iff_keyLt hh hk]
  cases normalLt h k <;> simp

/-- Elements with the same sign have a positive product. -/
theorem ratSign_eq_mul_pos {x y : ℚ} (hs : ratSign x = ratSign y) (hx : x ≠ 0) :
    0 < x * y := by
  rcases hx.lt_or_lt with hneg | hpos
  · have h1 : ratSign x = -1 := by
      unfold ratSign
      rw [if_neg (by linarith), if_pos hneg]
    rw [h1] at hs
    unfold ratSign at hs
    split_ifs at hs with h2 h3
    exact mul_pos_of_neg_of_neg hneg h3
  · have h1 : ratSign x = 1 := by
      unfold ratSign
      rw [if_pos hpos]
    rw [h1] at hs
    unfold ratSign at hs
    split_ifs at hs with h2 h3
    · exact mul_pos hpos h2
    · exact absurd hs (by decide)

/-- Normals whose first coordinates have a positive product are in the same
class. -/
theorem npl_eq_of_bB_pos (c C : ℚ) {b B : ℚ} (h : 0 < b * B) :
    normalPointsLeft b c = normalPointsLeft B C := by
  rcases mul_pos_iff.mp h with ⟨h₁, h₂⟩ | ⟨h₁, h₂⟩
  · rw [normalPointsLeft_false_iff.mpr (Or.inl h₁),
      normalPointsLeft_false_iff.mpr (Or.inl h₂)]
  · rw [normalPointsLeft_iff.mpr (Or.inl h₁), normalPointsLeft_iff.mpr (Or.inl h₂)]

/-- Vertical normals whose second coordinates have a positive product are in
the same class. -/
theorem npl_eq_of_cC_pos {c C : ℚ} (h : 0 < c * C) :
    normalPointsLeft 0 c = normalPointsLeft 0 C := by
  rcases mul_pos_iff.mp h with ⟨h₁, h₂⟩ | ⟨h₁, h₂⟩
  · rw [normalPointsLeft_false_iff.mpr (Or.inr ⟨rfl, le_of_lt h₁⟩),
      normalPointsLeft_false_iff.mpr (Or.inr ⟨rfl, le_of_lt h₂⟩)]
  · rw [normalPointsLeft_iff.mpr (Or.inr ⟨rfl, h₁⟩),
      normalPointsLeft_iff.mpr (Or.inr ⟨rfl, h₂⟩)]

/-- Half spaces that are equal in the sense of `HyperbolicGeodesic._richcmp_`
(positively proportional coefficient triples) have the same key. -/
theorem geodEq_hsKey_eq {h k : HyperbolicHalfSpace}
    (hh : h.isValid) (hk : k.isValid)
    (he : geodEq h.geodesic k.geodesic = true) : hsKey h = hsKey k := by
  have hbc := isValid_normal_ne hh
  obtain ⟨⟨a, b, c⟩⟩ := h
  obtain ⟨⟨A, B, C⟩⟩ := k
  simp only [HyperbolicHalfSpace.b, HyperbolicHalfSpace.c] at hbc
  unfold geodEq at he
  dsimp only at he
  simp only [hsKey, HyperbolicHalfSpace.a, HyperbolicHalfSpace.b, HyperbolicHalfSpace.c]
  by_cases hb0 : b = 0
  · -- vertical boundary normal: compare via the `c` branch of `_richcmp_`
    rw [if_neg (by simpa using hb0), decide_eq_true_eq] at he
    obtain ⟨hs, haC, hbC⟩ := he
    have hc0 : c ≠ 0 := by
      rcases hbc with hx | hx
      · exact absurd hb0 hx
      · exact hx
    have hcC : 0 < c * C := ratSign_eq_mul_pos hs hc0
    have hC0 : C ≠ 0 := fun h0 => by simp [h0] at hcC
    have hB0 : B = 0 := by
      rw [hb0, zero_mul] at hbC
      rcases mul_eq_zero.mp hbC.symm with hx | hx
      · exact hx
      · exact absurd hx hc0
    have h4 : a / c = A / C := by
      rw [div_eq_div_iff hc0 hC0]
      linarith
    simp only [hb0, hB0, npl_eq_of_cC_pos hcC, if_neg hc0, if_neg hC0, h4]
    simp
  · rw [if_pos (by simpa using hb0), decide_eq_true_eq] at he
    obtain ⟨hs, haB, hcB⟩ := he
    have hbB : 0 < b * B := ratSign_eq_mul_pos hs hb0
    have hB0 : B ≠ 0 := fun h0 => by simp [h0] at hbB
    have h3 : c / b = C / B := by
      rw [div_eq_div_iff hb0 hB0]
      linarith
    by_cases hc0 : c = 0
    · have hC0 : C = 0 := by
        rw [hc0, zero_mul] at hcB
        rcases mul_eq_zero.mp hcB.symm with hx | hx
        · exact hx
        · exact absurd hx hb0
      have h4 : a / b = A / B := by
        rw [div_eq_div_iff hb0 hB0]
        linarith
      simp only [npl_eq_of_bB_pos c C hbB, if_neg hb0, if_neg hB0, h3, hc0, hC0, h4,
        if_pos rfl]
      simp [npl_eq_of_bB_pos 0 0 hbB]
    · have hC0 : C ≠ 0 := by
        intro h0
        rw [h0, zero_mul] at hcB
        rcases mul_eq_zero.mp hcB with hx | hx
        · exact hc0 hx
        · exact hB0 hx
      have h4 : a / c = A / C := by
        rw [div_eq_div_iff hc0 hC0]
        have hbne : b ≠ 0 := hb0
        have : (a * C) * b = (A * c) * b := by
          linear_combination c * haB - a * hcB
        exact mul_right_cancel₀ hbne this
      simp only [npl_eq_of_bB_pos c C hbB, if_neg hb0, if_neg hB0, h3, if_neg hc0,
        if_neg hC0, h4]

end KeyOrder

/-- The comparison `normalLt` is irreflexive on valid half spaces. -/
theorem normalLt_irrefl {h : HyperbolicHalfSpace} (hv : h.isValid) :
    normalLt h h = false := by
  rw [normalLt_eq_false_iff hv hv]
  exact keyLt_irrefl _

/-- The comparison `normalLt` is asymmetric on valid half spaces. -/
theorem normalLt_asymm {h k : HyperbolicHalfSpace}
    (hh : h.isValid) (hk : k.isValid) :
    normalLt h k = true → normalLt k h = false := by
  intro h₁
  rw [normalLt_eq_false_iff hk hh]
  exact keyLt_asymm ((normalLt_iff_keyLt hh hk).mp h₁)

/-- The comparison `normalLt` is transitive on valid half spaces. -/
theorem normalLt_trans {h k l : HyperbolicHalfSpace}
    (hh : h.isValid) (hk : k.isValid) (hl : l.isValid) :
    normalLt h k = true → normalLt k l = true → normalLt h l = true := by
  intro h₁ h₂
  exact (normalLt_iff_keyLt hh hl).mpr
    (keyLt_trans ((normalLt_iff_keyLt hh hk).mp h₁) ((normalLt_iff_keyLt hk hl).mp h₂))

/-- The negation of `normalLt` is transitive on valid half spaces. -/
theorem normalLt_le_trans {h k l : HyperbolicHalfSpace}
    (hh : h.isValid) (hk : k.isValid) (hl : l.isValid) :
    normalLt h k = false → normalLt k l = false → normalLt h l = false := by
  intro h₁ h₂
  rw [normalLt_eq_false_iff hh hk] at h₁
  rw [normalLt_eq_false_iff hk hl] at h₂
  rw [normalLt_eq_false_iff hh hl]
  intro h₃
  rcases keyLt_trichotomy (hsKey h) (hsKey k) with ht | ht | ht
  · exact h₁ ht
  · exact h₂ (ht ▸ h₃)
  · exact h₂ (keyLt_trans ht h₃)

/-- If `h < k` and `h` is not less than `y`, then `k` is not less than `y`. -/
theorem normalLt_right_false {h k y : HyperbolicHalfSpace}
    (hh : h.isValid) (hk : k.isValid) (hy : y.isValid) :
    normalLt h k = true → normalLt h y = false → normalLt k y = false := by
  intro h₁ h₂
  rw [normalLt_eq_false_iff hh hy] at h₂
  rw [normalLt_eq_false_iff hk hy]
  intro h₃
  exact h₂ (keyLt_trans ((normalLt_iff_keyLt hh hk).mp h₁) h₃)

/-- Claim C5: on valid half spaces, `_normal_lt` is a strict order:
irreflexive, asymmetric and transitive, and two half spaces that are equal
(in the sense of `_richcmp_` on their boundary geodesics) are not less than
each other in either direction. -/
theorem normal_lt_strict_order :
    (∀ h : HyperbolicHalfSpace, h.isValid → normalLt h h = false)
    ∧ (∀ h k : HyperbolicHalfSpace, h.isValid → k.isValid →
        ¬(normalLt h k = true ∧ normalLt k h = true))
    ∧ (∀ h k l : HyperbolicHalfSpace, h.isValid → k.isValid → l.isValid →
        normalLt h k = true → normalLt k l = true → normalLt h l = true)
    ∧ (∀ h k : HyperbolicHalfSpace, h.isValid → k.isValid →
        geodEq h.geodesic k.geodesic = true →
        normalLt h k = false ∧ normalLt k h = false) := by
  refine ⟨?_, ?_, ?_, ?_⟩
  · intro h hv
    exact normalLt_irrefl hv
  · intro h k hh hk ⟨h₁, h₂⟩
    rw [normalLt_asymm hh hk h₁] at h₂
    exact absurd h₂ (by simp)
  · intro h k l hh hk hl h₁ h₂
    exact normalLt_trans hh hk hl h₁ h₂
  · intro h k hh hk he
    have hkey := geodEq_hsKey_eq hh hk he
    constructor
    · rw [normalLt_eq_false_iff hh hk, hkey]
      exact keyLt_irrefl _
    · rw [normalLt_eq_false_iff hk hh, hkey]
      exact keyLt_irrefl _

/-- The left half space of the vertical geodesic at 0 is valid. -/
theorem validVerticalLeft : HyperbolicHalfSpace.isValid ⟨⟨0, -1, 0⟩⟩ := by
  norm_num [HyperbolicHalfSpace.isValid, HyperbolicGeodesic.isValid]

/-- The right half space of the vertical geodesic at 0 is valid. -/
theorem validVerticalRight : HyperbolicHalfSpace.isValid ⟨⟨0, 1, 0⟩⟩ := by
  norm_num [HyperbolicHalfSpace.isValid, HyperbolicGeodesic.isValid]

/-- The half space with Klein coefficients `(1, -2, 0)` is valid. -/
theorem validOneTwo : HyperbolicHalfSpace.isValid ⟨⟨1, -2, 0⟩⟩ := by
  norm_num [HyperbolicHalfSpace.isValid, HyperbolicGeodesic.isValid]

/-- The normals `(-1, 0)` and `(-2, 0)` are in the same class. -/
theorem nplNegNeg : normalPointsLeft (-1 : ℚ) 0 = normalPointsLeft (-2 : ℚ) 0 := by
  norm_num [normalPointsLeft]

theorem normal_lt_strict_order_witness :
    (HyperbolicHalfSpace.isValid ⟨⟨0, -1, 0⟩⟩
      ∧ HyperbolicHalfSpace.isValid ⟨⟨0, 1, 0⟩⟩)
    ∧ normalLt ⟨⟨0, -1, 0⟩⟩ ⟨⟨0, -1, 0⟩⟩ = false
    ∧ ¬(normalLt ⟨⟨0, -1, 0⟩⟩ ⟨⟨0, 1, 0⟩⟩ = true
        ∧ normalLt ⟨⟨0, 1, 0⟩⟩ ⟨⟨0, -1, 0⟩⟩ = true) :=
  ⟨⟨validVerticalLeft, validVerticalRight⟩,
    normal_lt_strict_order.1 ⟨⟨0, -1, 0⟩⟩ validVerticalLeft,
    normal_lt_strict_order.2.1 ⟨⟨0, -1, 0⟩⟩ ⟨⟨0, 1, 0⟩⟩ validVerticalLeft
      validVerticalRight⟩

/-- Claim C4 (counterexample): for the valid half spaces with Klein
coefficients `(0, 0, -1)` and `(0, -1, 0)`, both normals point left (same
class), the slope comparison value `sign(b*B) * sign(c*B - C*b)` is zero, yet
`(B, C) = (-1, 0)` is not a positive multiple of `(b, c) = (0, -1)`. -/
theorem slope_sign_zero_not_parallel :
    HyperbolicHalfSpace.isValid ⟨⟨0, 0, -1⟩⟩
    ∧ HyperbolicHalfSpace.isValid ⟨⟨0, -1, 0⟩⟩
    ∧ normalPointsLeft (0 : ℚ) (-1) = normalPointsLeft (-1 : ℚ) 0
    ∧ slopeCmp ⟨⟨0, 0, -1⟩⟩ ⟨⟨0, -1, 0⟩⟩ = 0
    ∧ ¬ ∃ t : ℚ, 0 < t ∧ (-1 : ℚ) = t * 0 ∧ (0 : ℚ) = t * (-1) := by
  refine ⟨by norm_num [HyperbolicHalfSpace.isValid, HyperbolicGeodesic.isValid],
    by norm_num [HyperbolicHalfSpace.isValid, HyperbolicGeodesic.isValid],
    by norm_num [normalPointsLeft],
    by norm_num [slopeCmp, ratSign], ?_⟩
  rintro ⟨t, -, hb, -⟩
  rw [mul_zero] at hb
  exact absurd hb (by norm_num)

/-- Claim C4 (amended): for valid half spaces in the same class whose normals
are both non-vertical (`b*B ≠ 0`, the only case in which `_normal_lt`
consults the slope formula), the comparison value `sign(b*B)*sign(c*B - C*b)`
is zero iff `(B, C)` is a positive scalar multiple of `(b, c)`. -/
theorem slope_sign_zero_iff_parallel (h k : HyperbolicHalfSpace)
    (_hh : h.isValid) (_hk : k.isValid)
    (hcl : normalPointsLeft h.b h.c = normalPointsLeft k.b k.c)
    (hbB : h.b * k.b ≠ 0) :
    slopeCmp h k = 0 ↔ ∃ t : ℚ, 0 < t ∧ k.b = t * h.b ∧ k.c = t * h.c := by
  obtain ⟨hb, hB⟩ := mul_ne_zero_iff.mp hbB
  have hpos : 0 < h.b * k.b := same_class_bB_pos hb hB hcl
  rw [slopeCmp, ratSign_of_pos hpos, one_mul, ratSign_eq_zero_iff]
  constructor
  · intro h0
    refine ⟨k.b / h.b, ?_, ?_, ?_⟩
    · rcases mul_pos_iff.mp hpos with ⟨h1, h2⟩ | ⟨h1, h2⟩
      · exact div_pos h2 h1
      · exact div_pos_of_neg_of_neg h2 h1
    · exact (div_mul_cancel₀ k.b hb).symm
    · rw [div_mul_eq_mul_div, eq_div_iff hb]
      linarith
  · rintro ⟨t, ht, hb', hc'⟩
    rw [hb', hc']
    ring

/-- The product `(-1) * (-2)` is nonzero. -/
theorem negMulNegNe : (-1 : ℚ) * (-2) ≠ 0 := by norm_num

theorem slope_sign_zero_iff_parallel_witness :
    (HyperbolicHalfSpace.isValid ⟨⟨0, -1, 0⟩⟩
      ∧ HyperbolicHalfSpace.isValid ⟨⟨1, -2, 0⟩⟩
      ∧ normalPointsLeft (-1 : ℚ) 0 = normalPointsLeft (-2 : ℚ) 0
      ∧ (-1 : ℚ) * (-2) ≠ 0)
    ∧ (slopeCmp ⟨⟨0, -1, 0⟩⟩ ⟨⟨1, -2, 0⟩⟩ = 0
        ↔ ∃ t : ℚ, 0 < t ∧ (-2 : ℚ) = t * (-1) ∧ (0 : ℚ) = t * 0) :=
  ⟨⟨validVerticalLeft, validOneTwo, nplNegNeg, negMulNegNe⟩,
    slope_sign_zero_iff_parallel ⟨⟨0, -1, 0⟩⟩ ⟨⟨1, -2, 0⟩⟩
      validVerticalLeft validOneTwo nplNegNeg negMulNegNe⟩

section MergeSort

/-!
`HyperbolicPlane._merge_sort` merges sorted lists of half spaces.  The Python
base case for two lists pops the larger of the two last elements onto
`merged` (building it in descending order), reverses `merged` and prepends the
leftovers `A + B`; on three or more lists it recurses on the two halves.
We model the loop over the reversed lists (`mergeDesc`) so that the pops
become head consumption.
-/

/-- The sortedness predicate for lists of half spaces: no element is
`_normal_lt`-smaller than its predecessor. -/
def sortedHS (l : List HyperbolicHalfSpace) : Prop :=
  l.Chain' (fun x y => normalLt y x = false)

/-- The descending relation used while building `merged`. -/
def descR (x y : HyperbolicHalfSpace) : Prop := normalLt x y = false

/-- The merging loop of `_merge_sort` on two lists, acting on the reversed
lists: the Python compares `A[-1]` and `B[-1]` and pops the larger one; here
the heads of the reversed lists are compared and consumed.  Once one list is
exhausted the other remains as the leftover `A + B` of the Python code. -/
def mergeDesc : List HyperbolicHalfSpace → List HyperbolicHalfSpace →
    List HyperbolicHalfSpace
  | [], B => B
  | A, [] => A
  | a :: A, b :: B =>
    if normalLt a b then b :: mergeDesc (a :: A) B
    else a :: mergeDesc A (b :: B)
termination_by A B => A.length + B.length

/-- The two-list base case of `HyperbolicPlane._merge_sort`. -/
def merge2 (A B : List HyperbolicHalfSpace) : List HyperbolicHalfSpace :=
  (mergeDesc A.reverse B.reverse).reverse

/-- Embeds `HyperbolicPlane._merge_sort`: zero lists merge to the empty list, one
list is returned as is, two lists are merged, and three or more lists are
split in half at `count // 2` and merged recursively. -/
def mergeSort : List (List HyperbolicHalfSpace) → List HyperbolicHalfSpace
  | [] => []
  | [l] => l
  | [A, B] => merge2 A B
  | l₁ :: l₂ :: l₃ :: rest =>
    merge2
      (mergeSort ((l₁ :: l₂ :: l₃ :: rest).take ((l₁ :: l₂ :: l₃ :: rest).length / 2)))
      (mergeSort ((l₁ :: l₂ :: l₃ :: rest).drop ((l₁ :: l₂ :: l₃ :: rest).length / 2)))
termination_by ls => ls.length
decreasing_by
  · simp [List.length_take]
    omega
  · simp [List.length_drop]
    omega

theorem mergeDesc_perm : ∀ A B : List HyperbolicHalfSpace,
    (mergeDesc A B).Perm (A ++ B)
  | [], B => by simp [mergeDesc]
  | a :: A, [] => by simp [mergeDesc]
  | a :: A, b :: B => by
    rw [mergeDesc]
    split_ifs with hab
    · exact ((mergeDesc_perm (a :: A) B).cons b).trans List.perm_middle.symm
    · exact (mergeDesc_perm A (b :: B)).cons a
termination_by A B => A.length + B.length

theorem mergeDesc_mem {x : HyperbolicHalfSpace}
    {A B : List HyperbolicHalfSpace} (hx : x ∈ mergeDesc A B) :
    x ∈ A ∨ x ∈ B := by
  have := (mergeDesc_perm A B).mem_iff.mp hx
  simpa using this

theorem mergeDesc_pairwise : ∀ A B : List HyperbolicHalfSpace,
    (∀ x ∈ A ++ B, x.isValid) →
    A.Pairwise descR → B.Pairwise descR → (mergeDesc A B).Pairwise descR
  | [], B => fun _ _ hB => by simpa [mergeDesc] using hB
  | a :: A, [] => fun _ hA _ => by simpa [mergeDesc] using hA
  | a :: A, b :: B => fun hval hA hB => by
    have hsub1 : ∀ x ∈ a :: A, x.isValid := fun x hx =>
      hval x (by
        rcases List.mem_cons.mp hx with rfl | h'
        · simp
        · simp [h'])
    have hsub2 : ∀ x ∈ b :: B, x.isValid := fun x hx =>
      hval x (by
        rcases List.mem_cons.mp hx with rfl | h'
        · simp
        · simp [h'])
    have hvala : a.isValid := hsub1 a (by simp)
    have hvalb : b.isValid := hsub2 b (by simp)
    rw [mergeDesc]
    split_ifs with hab
    · rw [List.pairwise_cons]
      constructor
      · intro y hy
        rcases mergeDesc_mem hy with hyA | hyB
        · have hvy : y.isValid := hsub1 y hyA
          rcases List.mem_cons.mp hyA with rfl | hyA'
          · exact normalLt_asymm hvala hvalb hab
          · have hay : normalLt a y = false :=
              (List.pairwise_cons.mp hA).1 y hyA'
            exact normalLt_right_false hvala hvalb hvy hab hay
        · exact (List.pairwise_cons.mp hB).1 y hyB
      · exact mergeDesc_pairwise (a :: A) B
          (fun x hx => by
            rcases List.mem_append.mp hx with hx' | hx'
            · exact hsub1 x hx'
            · exact hsub2 x (List.mem_cons_of_mem b hx'))
          hA (List.pairwise_cons.mp hB).2
    · rw [List.pairwise_cons]
      constructor
      · intro y hy
        rcases mergeDesc_mem hy with hyA | hyB
        · exact (List.pairwise_cons.mp hA).1 y hyA
        · have hvy : y.isValid := hsub2 y hyB
          rcases List.mem_cons.mp hyB with rfl | hyB'
          · simpa [descR] using hab
          · have hby : normalLt b y = false :=
              (List.pairwise_cons.mp hB).1 y hyB'
            have hab' : normalLt a b = false := by simpa using hab
            exact normalLt_le_trans hvala hvalb hvy hab' hby
      · exact mergeDesc_pairwise A (b :: B)
          (fun x hx => by
            rcases List.mem_append.mp hx with hx' | hx'
            · exact hsub1 x (List.mem_cons_of_mem a hx')
            · exact hsub2 x hx')
          (List.pairwise_cons.mp hA).2 hB
termination_by A B => A.length + B.length

theorem pairwise_of_sortedHS : ∀ l : List HyperbolicHalfSpace,
    (∀ x ∈ l, x.isValid) → sortedHS l →
    l.Pairwise (fun x y => normalLt y x = false)
  | [] => fun _ _ => List.Pairwise.nil
  | [x] => fun _ _ => by simp
  | x :: z :: l => fun hval hs => by
    unfold sortedHS at hs
    rw [List.chain'_cons] at hs
    obtain ⟨hxz, hs'⟩ := hs
    have hrest := pairwise_of_sortedHS (z :: l)
      (fun y hy => hval y (List.mem_cons_of_mem x hy)) hs'
    rw [List.pairwise_cons]
    refine ⟨?_, hrest⟩
    intro y hy
    rcases List.mem_cons.mp hy with rfl | hy'
    · exact hxz
    · have h1 : normalLt y z = false := (List.pairwise_cons.mp hrest).1 y hy'
      exact normalLt_le_trans
        (hval y (List.mem_cons_of_mem x hy))
        (hval z (by simp))
        (hval x (by simp))
        h1 hxz

theorem sortedHS_of_pairwise {l : List HyperbolicHalfSpace}
    (h : l.Pairwise (fun x y => normalLt y x = false)) : sortedHS l :=
  List.Pairwise.chain' h

theorem merge2_perm (A B : List HyperbolicHalfSpace) :
    (merge2 A B).Perm (A ++ B) := by
  unfold merge2
  exact (List.reverse_perm _).trans ((mergeDesc_perm _ _).trans
    (List.Perm.append (List.reverse_perm A) (List.reverse_perm B)))

theorem merge2_sorted {A B : List HyperbolicHalfSpace}
    (hval : ∀ x ∈ A ++ B, x.isValid)
    (hA : sortedHS A) (hB : sortedHS B) : sortedHS (merge2 A B) := by
  have hvalA : ∀ x ∈ A, x.isValid := fun x hx => hval x (List.mem_append.mpr (Or.inl hx))
  have hvalB : ∀ x ∈ B, x.isValid := fun x hx => hval x (List.mem_append.mpr (Or.inr hx))
  have hpA : A.reverse.Pairwise descR := by
    rw [List.pairwise_reverse]
    exact pairwise_of_sortedHS A hvalA hA
  have hpB : B.reverse.Pairwise descR := by
    rw [List.pairwise_reverse]
    exact pairwise_of_sortedHS B hvalB hB
  have hvalRev : ∀ x ∈ A.reverse ++ B.reverse, x.isValid := by
    intro x hx
    rcases List.mem_append.mp hx with hx' | hx'
    · exact hvalA x (List.mem_reverse.mp hx')
    · exact hvalB x (List.mem_reverse.mp hx')
  have hmerge := mergeDesc_pairwise A.reverse B.reverse hvalRev hpA hpB
  apply sortedHS_of_pairwise
  unfold merge2
  rw [List.pairwise_reverse]
  exact hmerge

theorem mergeSort_perm : ∀ ls : List (List HyperbolicHalfSpace),
    (mergeSort ls).Perm ls.flatten
  | [] => by simp [mergeSort]
  | [l] => by simp [mergeSort]
  | [A, B] => by simpa [mergeSort] using merge2_perm A B
  | l₁ :: l₂ :: l₃ :: rest => by
    rw [mergeSort]
    have h1 := mergeSort_perm
      ((l₁ :: l₂ :: l₃ :: rest).take ((l₁ :: l₂ :: l₃ :: rest).length / 2))
    have h2 := mergeSort_perm
      ((l₁ :: l₂ :: l₃ :: rest).drop ((l₁ :: l₂ :: l₃ :: rest).length / 2))
    refine ((merge2_perm _ _).trans ((h1.append h2).trans ?_))
    rw [← List.flatten_append, List.take_append_drop]
termination_by ls => ls.length
decreasing_by
  · simp [List.length_take]
    omega
  · simp [List.length_drop]
    omega

theorem mergeSort_mem {x : HyperbolicHalfSpace}
    {ls : List (List HyperbolicHalfSpace)} (hx : x ∈ mergeSort ls) :
    ∃ l ∈ ls, x ∈ l := by
  have := (mergeSort_perm ls).mem_iff.mp hx
  exact List.mem_flatten.mp this

theorem mergeSort_sorted : ∀ ls : List (List HyperbolicHalfSpace),
    (∀ l ∈ ls, ∀ x ∈ l, x.isValid) → (∀ l ∈ ls, sortedHS l) →
    sortedHS (mergeSort ls)
  | [] => fun _ _ => by simp [mergeSort, sortedHS]
  | [l] => fun _ hs => by
    rw [mergeSort]
    exact hs l (by simp)
  | [A, B] => fun hval hs => by
    rw [mergeSort]
    refine merge2_sorted ?_ (hs A (by simp)) (hs B (by simp))
    intro x hx
    rcases List.mem_append.mp hx with hx' | hx'
    · exact hval A (by simp) x hx'
    · exact hval B (by simp) x hx'
  | l₁ :: l₂ :: l₃ :: rest => fun hval hs => by
    rw [mergeSort]
    have hvalT : ∀ l ∈ (l₁ :: l₂ :: l₃ :: rest).take
        ((l₁ :: l₂ :: l₃ :: rest).length / 2), ∀ x ∈ l, x.isValid :=
      fun l hl => hval l (List.take_subset _ _ hl)
    have hvalD : ∀ l ∈ (l₁ :: l₂ :: l₃ :: rest).drop
        ((l₁ :: l₂ :: l₃ :: rest).length / 2), ∀ x ∈ l, x.isValid :=
      fun l hl => hval l (List.drop_subset _ _ hl)
    have hsT : ∀ l ∈ (l₁ :: l₂ :: l₃ :: rest).take
        ((l₁ :: l₂ :: l₃ :: rest).length / 2), sortedHS l :=
      fun l hl => hs l (List.take_subset _ _ hl)
    have hsD : ∀ l ∈ (l₁ :: l₂ :: l₃ :: rest).drop
        ((l₁ :: l₂ :: l₃ :: rest).length / 2), sortedHS l :=
      fun l hl => hs l (List.drop_subset _ _ hl)
    refine merge2_sorted ?_ (mergeSort_sorted _ hvalT hsT) (mergeSort_sorted _ hvalD hsD)
    intro x hx
    rcases List.mem_append.mp hx with hx' | hx'
    · obtain ⟨l, hl, hxl⟩ := mergeSort_mem hx'
      exact hvalT l hl x hxl
    · obtain ⟨l, hl, hxl⟩ := mergeSort_mem hx'
      exact hvalD l hl x hxl
termination_by ls => ls.length
decreasing_by
  · simp [List.length_take]
    omega
  · simp [List.length_drop]
    omega

end MergeSort

/-- Claim C3: merging input lists of valid half spaces that are each sorted
with respect to `_normal_lt` produces a single list that is sorted with
respect to `_normal_lt` and whose elements are exactly the multiset union of
the inputs' elements. -/
theorem merge_sort_sorted_perm (ls : List (List HyperbolicHalfSpace))
    (hval : ∀ l ∈ ls, ∀ x ∈ l, x.isValid)
    (hsorted : ∀ l ∈ ls, sortedHS l) :
    sortedHS (mergeSort ls) ∧ (mergeSort ls).Perm ls.flatten :=
  ⟨mergeSort_sorted ls hval hsorted, mergeSort_perm ls⟩

/-- The two singleton lists of the vertical half spaces are lists of valid
half spaces. -/
theorem validSingletonLists :
    ∀ l ∈ [[(⟨⟨0, -1, 0⟩⟩ : HyperbolicHalfSpace)], [⟨⟨0, 1, 0⟩⟩]],
      ∀ x ∈ l, x.isValid := by
  intro l hl x hx
  simp only [List.mem_cons, List.not_mem_nil, or_false] at hl
  rcases hl with rfl | rfl
  · simp only [List.mem_cons, List.not_mem_nil, or_false] at hx
    rw [hx]
    exact validVerticalLeft
  · simp only [List.mem_cons, List.not_mem_nil, or_false] at hx
    rw [hx]
    exact validVerticalRight

/-- Singleton lists are sorted. -/
theorem sortedSingletonLists :
    ∀ l ∈ [[(⟨⟨0, -1, 0⟩⟩ : HyperbolicHalfSpace)], [⟨⟨0, 1, 0⟩⟩]], sortedHS l := by
  intro l hl
  simp only [List.mem_cons, List.not_mem_nil, or_false] at hl
  rcases hl with rfl | rfl <;> simp [sortedHS]

theorem merge_sort_sorted_perm_witness :
    ((∀ l ∈ [[(⟨⟨0, -1, 0⟩⟩ : HyperbolicHalfSpace)], [⟨⟨0, 1, 0⟩⟩]],
        ∀ x ∈ l, x.isValid)
      ∧ (∀ l ∈ [[(⟨⟨0, -1, 0⟩⟩ : HyperbolicHalfSpace)], [⟨⟨0, 1, 0⟩⟩]], sortedHS l))
    ∧ (sortedHS (mergeSort [[(⟨⟨0, -1, 0⟩⟩ : HyperbolicHalfSpace)], [⟨⟨0, 1, 0⟩⟩]])
      ∧ (mergeSort [[(⟨⟨0, -1, 0⟩⟩ : HyperbolicHalfSpace)], [⟨⟨0, 1, 0⟩⟩]]).Perm
          [[(⟨⟨0, -1, 0⟩⟩ : HyperbolicHalfSpace)], [⟨⟨0, 1, 0⟩⟩]].flatten) :=
  ⟨⟨validSingletonLists, sortedSingletonLists⟩,
    merge_sort_sorted_perm [[⟨⟨0, -1, 0⟩⟩], [⟨⟨0, 1, 0⟩⟩]]
      validSingletonLists sortedSingletonLists⟩

/-- The error kinds surfaced by the factories and accessors (all raised as
Python exceptions in the source). -/
inductive HyperbolicError where
  | invalidChord
  | invalidPoint
  | notRepresentable
  | notImplementedHalfSpaces
  | typeErrorNotCallable
deriving DecidableEq

/-- Embeds `HyperbolicPlane.geodesic(a, b, c, model="klein", check=True)`: stores the
triple and raises "does not define a chord" when `b² + c² ≤ a²`. -/
def geodesicKlein (a b c : ℚ) : Except HyperbolicError HyperbolicGeodesic :=
  if (⟨a, b, c⟩ : HyperbolicGeodesic).isValid then .ok ⟨a, b, c⟩
  else .error .invalidChord

/-- Embeds `HyperbolicPlane.geodesic(a, b, c, model="half_plane")`: converts to the
Klein model via `(a + c, b, a - c)` and constructs there. -/
def geodesicHalfPlane (a b c : ℚ) : Except HyperbolicError HyperbolicGeodesic :=
  geodesicKlein (a + c) b (a - c)

/-- Embeds `HyperbolicGeodesic.equation(model="half_plane")`: the stored Klein triple
`(a, b, c)` is reported as the half-plane equation `(a + c, 2b, a - c)`. -/
def HyperbolicGeodesic.equationHalfPlane (g : HyperbolicGeodesic) : ℚ × ℚ × ℚ :=
  (g.a + g.c, 2 * g.b, g.a - g.c)

/-- Claim C9: constructing a geodesic from Klein coefficients with validation
enabled fails with the invalid-chord error exactly when `b² + c² ≤ a²`, and
otherwise succeeds with exactly the given coefficients. -/
theorem geodesic_klein_validation (a b c : ℚ) :
    (geodesicKlein a b c = .error .invalidChord ↔ b * b + c * c ≤ a * a)
    ∧ (a * a < b * b + c * c → geodesicKlein a b c = .ok ⟨a, b, c⟩) := by
  unfold geodesicKlein
  constructor
  · constructor
    · intro h
      split_ifs at h with hv
      unfold HyperbolicGeodesic.isValid at hv
      simp only [not_lt] at hv
      exact hv
    · intro hle
      rw [if_neg]
      unfold HyperbolicGeodesic.isValid
      simp only [not_lt]
      exact hle
  · intro hlt
    rw [if_pos]
    exact hlt

/-- The geodesic `x = 0` is a valid chord. -/
theorem validChordVertical : ((0 : ℚ) * 0 < (-1) * (-1) + 0 * 0) := by norm_num

theorem geodesic_klein_validation_witness :
    ((0 : ℚ) * 0 < (-1) * (-1) + 0 * 0)
    ∧ geodesicKlein 0 (-1) 0 = .ok ⟨0, -1, 0⟩ :=
  ⟨validChordVertical, (geodesic_klein_validation 0 (-1) 0).2 validChordVertical⟩

/-- Claim C6: constructing a geodesic from half-plane coefficients `(a, b, c)`
stores the Klein triple `(a + c, b, a - c)`; reading the half-plane equation
of a geodesic with stored Klein triple `(A, B, C)` yields `(A + C, 2B, A - C)`;
hence the half-plane → Klein → half-plane round trip returns `(2a, 2b, 2c)`,
a positive scalar multiple of the input. -/
theorem geodesic_half_plane_round_trip (a b c : ℚ)
    (hv : HyperbolicGeodesic.isValid ⟨a + c, b, a - c⟩) :
    geodesicHalfPlane a b c = .ok ⟨a + c, b, a - c⟩
    ∧ (∀ A B C : ℚ,
        HyperbolicGeodesic.equationHalfPlane ⟨A, B, C⟩ = (A + C, 2 * B, A - C))
    ∧ (geodesicHalfPlane a b c).map HyperbolicGeodesic.equationHalfPlane
        = .ok (2 * a, 2 * b, 2 * c)
    ∧ ∃ t : ℚ, 0 < t ∧ (2 * a, 2 * b, 2 * c) = (t * a, t * b, t * c) := by
  have h1 : geodesicHalfPlane a b c = .ok ⟨a + c, b, a - c⟩ := by
    unfold geodesicHalfPlane geodesicKlein
    rw [if_pos hv]
  refine ⟨h1, fun A B C => rfl, ?_, ⟨2, by norm_num, rfl⟩⟩
  rw [h1]
  show Except.ok (HyperbolicGeodesic.equationHalfPlane ⟨a + c, b, a - c⟩) = _
  unfold HyperbolicGeodesic.equationHalfPlane
  simp only [Except.ok.injEq, Prod.mk.injEq]
  refine ⟨by ring, by ring, by ring⟩

/-- The Klein triple of the unit half circle is a valid chord. -/
theorem validHalfCircleChord :
    HyperbolicGeodesic.isValid ⟨(1 : ℚ) + -1, 0, 1 - -1⟩ := by
  norm_num [HyperbolicGeodesic.isValid]

theorem geodesic_half_plane_round_trip_witness :
    HyperbolicGeodesic.isValid ⟨(1 : ℚ) + -1, 0, 1 - -1⟩
    ∧ (geodesicHalfPlane 1 0 (-1) = .ok ⟨1 + -1, 0, 1 - -1⟩
      ∧ (∀ A B C : ℚ,
          HyperbolicGeodesic.equationHalfPlane ⟨A, B, C⟩ = (A + C, 2 * B, A - C))
      ∧ (geodesicHalfPlane 1 0 (-1)).map HyperbolicGeodesic.equationHalfPlane
          = .ok (2 * 1, 2 * 0, 2 * (-1))
      ∧ ∃ t : ℚ, 0 < t ∧ ((2 : ℚ) * 1, (2 : ℚ) * 0, (2 : ℚ) * (-1))
          = (t * 1, t * 0, t * (-1))) :=
  ⟨validHalfCircleChord, geodesic_half_plane_round_trip 1 0 (-1) validHalfCircleChord⟩

/-- A point of the hyperbolic plane, stored as Euclidean coordinates in the
Klein disk (class `HyperbolicPoint`, fields `_x`, `_y`). -/
structure HyperbolicPoint where
  x : ℚ
  y : ℚ
deriving DecidableEq

/-- Embeds `HyperbolicPoint._is_valid`: the coordinates lie in the closed unit
disk. -/
def HyperbolicPoint.isValid (p : HyperbolicPoint) : Prop :=
  p.x * p.x + p.y * p.y ≤ 1

instance (p : HyperbolicPoint) : Decidable p.isValid :=
  inferInstanceAs (Decidable (p.x * p.x + p.y * p.y ≤ 1))

/-- Embeds `HyperbolicPlane.point(x, y, model="klein", check=True)`: stores the
coordinates and raises "point is not in the unit disk" when `x² + y² > 1`. -/
def pointKlein (x y : ℚ) : Except HyperbolicError HyperbolicPoint :=
  if x * x + y * y ≤ 1 then .ok ⟨x, y⟩ else .error .invalidPoint

/-- Embeds `HyperbolicPlane.point(x, y, model="half_plane")`: converts the
coordinates to the Klein model via
`(2x, -1 + x² + y²) / (1 + x² + y²)` and delegates to the Klein-model
constructor. -/
def pointHalfPlane (x y : ℚ) : Except HyperbolicError HyperbolicPoint :=
  pointKlein (2 * x / (1 + x * x + y * y)) ((-1 + x * x + y * y) / (1 + x * x + y * y))

/-- Claim C10: for every `(x, y) ∈ F²`, including `y ≤ 0`, the half-plane
point factory never raises: the computed Klein coordinates always satisfy
`X² + Y² ≤ 1`, so the validity-check branch of the point constructor is
unreachable from this factory, and `(x, y)` and `(x, -y)` produce equal
points. -/
theorem point_half_plane_always_valid (x y : ℚ) :
    pointHalfPlane x y
      = .ok ⟨2 * x / (1 + x * x + y * y), (-1 + x * x + y * y) / (1 + x * x + y * y)⟩
    ∧ pointHalfPlane x y = pointHalfPlane x (-y) := by
  have hd : (0 : ℚ) < 1 + x * x + y * y := by
    nlinarith [mul_self_nonneg x, mul_self_nonneg y]
  have hkey : (2 * x / (1 + x * x + y * y)) * (2 * x / (1 + x * x + y * y))
      + ((-1 + x * x + y * y) / (1 + x * x + y * y))
        * ((-1 + x * x + y * y) / (1 + x * x + y * y)) ≤ 1 := by
    rw [div_mul_div_comm, div_mul_div_comm, div_add_div_same,
      div_le_one (mul_pos hd hd)]
    nlinarith [mul_self_nonneg y, mul_self_nonneg x]
  constructor
  · unfold pointHalfPlane pointKlein
    rw [if_pos hkey]
  · unfold pointHalfPlane
    rw [neg_mul_neg]

/-- The model of the base field's partial exact square root (Sage
`sqrt(extend=False)`; spec §6: "exact square root (partial — may fail)"):
the nonnegative exact rational square root when one exists, failure
otherwise. -/
def ratSqrt (x : ℚ) : Option ℚ :=
  if Rat.sqrt x * Rat.sqrt x = x then some (Rat.sqrt x) else none

theorem ratSqrt_sound {x r : ℚ} (h : ratSqrt x = some r) : 0 ≤ r ∧ r * r = x := by
  unfold ratSqrt at h
  split_ifs at h with hs
  have hr := Option.some.inj h
  subst hr
  exact ⟨Rat.sqrt_nonneg x, hs⟩

theorem ratSqrt_eq_some_of_sq {x r : ℚ} (h0 : 0 ≤ r) (hr : r * r = x) :
    ratSqrt x = some r := by
  unfold ratSqrt
  have hs : Rat.sqrt x * Rat.sqrt x = x := (Rat.exists_mul_self x).mp ⟨r, hr⟩
  rw [if_pos hs]
  congr 1
  rw [← hr, Rat.sqrt_eq, abs_of_nonneg h0]

theorem ratSqrt_eq_none {x : ℚ} (h : ¬ ∃ r : ℚ, r * r = x) : ratSqrt x = none := by
  unfold ratSqrt
  rw [if_neg]
  intro hs
  exact h ⟨Rat.sqrt x, hs⟩

/-- The value of a square root taken with Sage's default `extend=True`: a
base-field element when the radicand is a perfect square in `F`, and
otherwise the element `scale * sqrt(radicand)` of a quadratic extension of
`F`. -/
inductive SqrtExtendResult where
  | inBase (r : ℚ)
  | inExtension (radicand : ℚ) (scale : ℚ)
deriving DecidableEq

/-- Models the exact field's `.sqrt()` with its default `extend=True` (the
call made by `HyperbolicPoint.coordinates`, which, unlike
`HyperbolicGeodesic.start`, does not pass `extend=False`): the nonnegative
rational square root when one exists, and otherwise the element
`sqrt(radicand)` of a quadratic extension; it never raises. -/
def sqrtExtend (x : ℚ) : SqrtExtendResult :=
  match ratSqrt x with
  | some r => .inBase r
  | none => .inExtension x 1

/-- Division of a possibly-extension square-root value by a base-field
element. -/
def SqrtExtendResult.divRat : SqrtExtendResult → ℚ → SqrtExtendResult
  | .inBase r, d => .inBase (r / d)
  | .inExtension rad scale, d => .inExtension rad (scale / d)

/-- Embeds `HyperbolicPoint.coordinates(model="half_plane")`: the inverse of
the half-plane → Klein conversion,
`(x / (1 - y), sqrt(1 - x² - y²) / (1 - y))`, with the square root taken by
the plain `.sqrt()` call of the source (default `extend=True`), so the second
coordinate may land in a quadratic extension of the base field and the call
never raises. -/
def HyperbolicPoint.coordinatesHalfPlane (p : HyperbolicPoint) :
    ℚ × SqrtExtendResult :=
  (p.x / (1 - p.y), (sqrtExtend (1 - p.x * p.x - p.y * p.y)).divRat (1 - p.y))

/-- Claim C8 (counterexample): for the point with Klein coordinates
`(1/2, 1/2)` the radicand `1/2` is not a perfect square in `F = ℚ`, yet
`coordinates(model="half_plane")` does not fail: the plain `.sqrt()` call
extends the field, so the method returns a coordinate pair whose second
coordinate `(1/(1 - y)) * sqrt(1/2)` lies in a quadratic extension and not in
`F` — there is no not-representable error. -/
theorem point_coordinates_no_failure :
    (¬ ∃ r : ℚ, r * r = 1 - (1/2 : ℚ) * (1/2) - (1/2 : ℚ) * (1/2))
    ∧ HyperbolicPoint.coordinatesHalfPlane ⟨1/2, 1/2⟩
      = ((1/2 : ℚ) / (1 - 1/2),
        .inExtension (1 - (1/2 : ℚ) * (1/2) - (1/2 : ℚ) * (1/2)) (1 / (1 - 1/2)))
    ∧ ∀ q : ℚ,
        (HyperbolicPoint.coordinatesHalfPlane ⟨1/2, 1/2⟩).2 ≠ .inBase q := by
  have hns : ¬ ∃ r : ℚ, r * r = 1 - (1/2 : ℚ) * (1/2) - (1/2 : ℚ) * (1/2) := by
    rintro ⟨r, hr⟩
    have hr2 : r * r = (1/2 : ℚ) := by
      rw [hr]
      norm_num
    have hr2cast : (r : ℝ) * (r : ℝ) = 1/2 := by
      have hc := congrArg (fun q : ℚ => (q : ℝ)) hr2
      push_cast at hc
      exact hc
    have h2 : ((2 * r : ℚ) : ℝ) ^ 2 = 2 := by
      push_cast
      linear_combination (4 : ℝ) * hr2cast
    have hsq : Real.sqrt 2 = |((2 * r : ℚ) : ℝ)| := by
      rw [← h2, Real.sqrt_sq_eq_abs]
    have hirr : Irrational ((|2 * r| : ℚ) : ℝ) := by
      rw [Rat.cast_abs, ← hsq]
      exact irrational_sqrt_two
    exact Rat.not_irrational _ hirr
  have hval : HyperbolicPoint.coordinatesHalfPlane ⟨1/2, 1/2⟩
      = ((1/2 : ℚ) / (1 - 1/2),
        .inExtension (1 - (1/2 : ℚ) * (1/2) - (1/2 : ℚ) * (1/2)) (1 / (1 - 1/2))) := by
    unfold HyperbolicPoint.coordinatesHalfPlane sqrtExtend
    dsimp only
    rw [ratSqrt_eq_none hns]
    rfl
  refine ⟨hns, hval, ?_⟩
  intro q
  rw [hval]
  simp

/-- Claim C8 (amended): for a point with Klein coordinates `(x, y)`, `y < 1`,
`coordinates(model="half_plane")` returns
`(x / (1 - y), sqrt(1 - x² - y²) / (1 - y))`, the square root taken with the
default `extend=True`: when the radicand is a perfect square in `F` the
second coordinate is the base-field element `r / (1 - y)` with `r` the
nonnegative rational square root, and when it is not, the call does not
raise — the second coordinate is `(1/(1 - y)) * sqrt(1 - x² - y²)`, an
element of a quadratic extension and not of `F`. -/
theorem point_coordinates_half_plane_spec (x y : ℚ)
    (_hy : y < 1) (_hval : x * x + y * y ≤ 1) :
    ((∃ r : ℚ, r * r = 1 - x * x - y * y) →
      ∃ r : ℚ, 0 ≤ r ∧ r * r = 1 - x * x - y * y ∧
        HyperbolicPoint.coordinatesHalfPlane ⟨x, y⟩
          = (x / (1 - y), .inBase (r / (1 - y))))
    ∧ ((¬ ∃ r : ℚ, r * r = 1 - x * x - y * y) →
      HyperbolicPoint.coordinatesHalfPlane ⟨x, y⟩
        = (x / (1 - y), .inExtension (1 - x * x - y * y) (1 / (1 - y)))
      ∧ ∀ q : ℚ, (HyperbolicPoint.coordinatesHalfPlane ⟨x, y⟩).2 ≠ .inBase q) := by
  constructor
  · rintro ⟨r0, hr0⟩
    have habs : |r0| * |r0| = 1 - x * x - y * y := by
      rw [abs_mul_abs_self]
      exact hr0
    have hsome := ratSqrt_eq_some_of_sq (abs_nonneg r0) habs
    refine ⟨|r0|, abs_nonneg r0, habs, ?_⟩
    unfold HyperbolicPoint.coordinatesHalfPlane sqrtExtend
    dsimp only
    rw [hsome]
    rfl
  · intro hno
    have hnone := ratSqrt_eq_none hno
    have hval : HyperbolicPoint.coordinatesHalfPlane ⟨x, y⟩
        = (x / (1 - y), .inExtension (1 - x * x - y * y) (1 / (1 - y))) := by
      unfold HyperbolicPoint.coordinatesHalfPlane sqrtExtend
      dsimp only
      rw [hnone]
      rfl
    refine ⟨hval, ?_⟩
    intro q
    rw [hval]
    simp

/-- The fact `0 < 1` over the base field. -/
theorem zeroLtOneRat : (0 : ℚ) < 1 := zero_lt_one

/-- The origin of the Klein disk is a valid point. -/
theorem originValid : (0 : ℚ) * 0 + 0 * 0 ≤ 1 := by norm_num

theorem point_coordinates_half_plane_spec_witness :
    ((0 : ℚ) < 1 ∧ (0 : ℚ) * 0 + 0 * 0 ≤ 1)
    ∧ (((∃ r : ℚ, r * r = 1 - 0 * 0 - 0 * 0) →
        ∃ r : ℚ, 0 ≤ r ∧ r * r = 1 - 0 * 0 - 0 * 0 ∧
          HyperbolicPoint.coordinatesHalfPlane ⟨0, 0⟩
            = (0 / (1 - 0), .inBase (r / (1 - 0))))
      ∧ ((¬ ∃ r : ℚ, r * r = 1 - 0 * 0 - 0 * 0) →
        HyperbolicPoint.coordinatesHalfPlane ⟨0, 0⟩
          = (0 / (1 - 0), .inExtension (1 - 0 * 0 - 0 * 0) (1 / (1 - 0)))
        ∧ ∀ q : ℚ, (HyperbolicPoint.coordinatesHalfPlane ⟨0, 0⟩).2 ≠ .inBase q)) :=
  ⟨⟨zeroLtOneRat, originValid⟩,
    point_coordinates_half_plane_spec 0 0 zeroLtOneRat originValid⟩

/-- The value returned by `HyperbolicGeodesic.start`: in the vertical case the
Python returns a `HyperbolicPoint` (infinity or a real ideal point), while in
the half-circle case it returns the root itself, a base-field element. -/
inductive StartResult where
  | pt (p : HyperbolicPoint)
  | num (r : ℚ)
deriving DecidableEq

/-- The point at infinity, `H.infinity() = H.projective(1, 0)`, stored as
`(0, 1)` in the Klein model. -/
def infinityPoint : HyperbolicPoint := ⟨0, 1⟩

/-- Embeds `H.real(r) = H.point(r, 0, model="half_plane")`: the Klein coordinates of
the real ideal point `r` (the constructor always succeeds by claim C10). -/
def realPoint (r : ℚ) : HyperbolicPoint :=
  ⟨2 * r / (1 + r * r), (-1 + r * r) / (1 + r * r)⟩

/-- The body of `HyperbolicGeodesic.start` on the half-plane equation
`a(x² + y²) + bx + c = 0`: for `a = 0` the vertical's ideal endpoint; for
`a ≠ 0` the root `max` (for `a > 0`) or `min` (for `a < 0`) of the two
quadratic roots, requiring the exact square root of the discriminant. -/
def startFromEq (a b c : ℚ) : Except HyperbolicError StartResult :=
  if a = 0 then
    if 0 < b then .ok (.pt infinityPoint)
    else .ok (.pt (realPoint (-c / b)))
  else
    match ratSqrt (b * b - 4 * a * c) with
    | none => .error .notRepresentable
    | some root =>
      .ok (.num (if 0 < a then
        max ((-b - root) / (2 * a)) ((-b + root) / (2 * a))
      else
        min ((-b - root) / (2 * a)) ((-b + root) / (2 * a))))

/-- Embeds `HyperbolicGeodesic.start`, reading the half-plane equation
`(a + c, 2b, a - c)` off the stored Klein triple. -/
def HyperbolicGeodesic.start (g : HyperbolicGeodesic) :
    Except HyperbolicError StartResult :=
  startFromEq (g.a + g.c) (2 * g.b) (g.a - g.c)

/-- Embeds `HyperbolicGeodesic._neg_`: all three Klein coefficients are negated. -/
def HyperbolicGeodesic.neg (g : HyperbolicGeodesic) : HyperbolicGeodesic :=
  ⟨-g.a, -g.b, -g.c⟩

/-- Embeds `HyperbolicGeodesic.end`: computed as `(-self).start()`. -/
def HyperbolicGeodesic.end' (g : HyperbolicGeodesic) :
    Except HyperbolicError StartResult :=
  g.neg.start

theorem startFromEq_roots {a b c root : ℚ} (ha : a ≠ 0) (h0 : 0 ≤ root)
    (hroot : root * root = b * b - 4 * a * c) :
    startFromEq a b c = .ok (.num (if 0 < a then
        max ((-b - root) / (2 * a)) ((-b + root) / (2 * a))
      else
        min ((-b - root) / (2 * a)) ((-b + root) / (2 * a)))) := by
  unfold startFromEq
  rw [if_neg ha, ratSqrt_eq_some_of_sq h0 hroot]

/-- Factorization of the quadratic over its two roots. -/
theorem quad_factor {a b c root : ℚ} (ha : a ≠ 0)
    (hroot : root * root = b * b - 4 * a * c) (s : ℚ) :
    a * (s - (-b - root) / (2 * a)) * (s - (-b + root) / (2 * a))
      = a * s * s + b * s + c := by
  have h4a : (4 : ℚ) * a ≠ 0 := mul_ne_zero (by norm_num) ha
  have expand : a * (s - (-b - root) / (2 * a)) * (s - (-b + root) / (2 * a))
      = a * s * s + b * s + (b * b - root * root) / (4 * a) := by
    field_simp
    ring
  rw [expand, hroot]
  congr 1
  rw [show b * b - (b * b - 4 * a * c) = c * (4 * a) from by ring]
  exact mul_div_cancel_right₀ c h4a

theorem quad_root_low {a b c root : ℚ} (ha : a ≠ 0)
    (hroot : root * root = b * b - 4 * a * c) :
    a * ((-b - root) / (2 * a)) * ((-b - root) / (2 * a))
      + b * ((-b - root) / (2 * a)) + c = 0 := by
  rw [← quad_factor ha hroot ((-b - root) / (2 * a)), sub_self, mul_zero, zero_mul]

theorem quad_root_high {a b c root : ℚ} (ha : a ≠ 0)
    (hroot : root * root = b * b - 4 * a * c) :
    a * ((-b + root) / (2 * a)) * ((-b + root) / (2 * a))
      + b * ((-b + root) / (2 * a)) + c = 0 := by
  rw [← quad_factor ha hroot ((-b + root) / (2 * a)), sub_self, mul_zero]

theorem quad_root_only {a b c root s : ℚ} (ha : a ≠ 0)
    (hroot : root * root = b * b - 4 * a * c)
    (hs : a * s * s + b * s + c = 0) :
    s = (-b - root) / (2 * a) ∨ s = (-b + root) / (2 * a) := by
  have h := (quad_factor ha hroot s).trans hs
  rcases mul_eq_zero.mp h with h' | h'
  · rcases mul_eq_zero.mp h' with h'' | h''
    · exact absurd h'' ha
    · exact Or.inl (by linarith [sub_eq_zero.mp h''])
  · exact Or.inr (sub_eq_zero.mp h')

/-- Claim C7: for a geodesic whose half-plane equation is
`a(x² + y²) + bx + c = 0`: when `a = 0` the starting point is the point at
infinity or the real ideal point `-c/b`; when `a ≠ 0` and the discriminant
`b² - 4ac` has an exact square root in `F`, `start()` returns the larger of
the two roots of `a t² + b t + c = 0` if `a > 0` and the smaller if `a < 0`,
while `end()`, computed as `(-g).start()`, returns the complementary root;
when the discriminant has no exact square root in `F`, both `start()` and
`end()` fail with a not-representable error. -/
theorem geodesic_start_end_spec (g : HyperbolicGeodesic) (_hv : g.isValid) :
    ∀ a b c : ℚ, g.equationHalfPlane = (a, b, c) →
      ((a = 0 →
          g.start = .ok (.pt infinityPoint)
          ∨ g.start = .ok (.pt (realPoint (-c / b))))
      ∧ g.end' = g.neg.start
      ∧ (a ≠ 0 → (∃ r : ℚ, r * r = b * b - 4 * a * c) →
          ∃ R R', g.start = .ok (.num R) ∧ g.end' = .ok (.num R')
            ∧ a * R * R + b * R + c = 0 ∧ a * R' * R' + b * R' + c = 0
            ∧ (0 < a → ∀ s, a * s * s + b * s + c = 0 → s ≤ R ∧ R' ≤ s)
            ∧ (a < 0 → ∀ s, a * s * s + b * s + c = 0 → R ≤ s ∧ s ≤ R'))
      ∧ (a ≠ 0 → (¬ ∃ r : ℚ, r * r = b * b - 4 * a * c) →
          g.start = .error .notRepresentable
          ∧ g.end' = .error .notRepresentable)) := by
  intro a b c heq
  unfold HyperbolicGeodesic.equationHalfPlane at heq
  rw [Prod.mk.injEq, Prod.mk.injEq] at heq
  obtain ⟨ha, hb, hc⟩ := heq
  have hgstart : g.start = startFromEq a b c := by
    unfold HyperbolicGeodesic.start
    rw [ha, hb, hc]
  have hgend : g.end' = startFromEq (-a) (-b) (-c) := by
    unfold HyperbolicGeodesic.end' HyperbolicGeodesic.start HyperbolicGeodesic.neg
    dsimp only
    rw [show -g.a + -g.c = -(g.a + g.c) from by ring, ha]
    rw [show 2 * -g.b = -(2 * g.b) from by ring, hb]
    rw [show -g.a - -g.c = -(g.a - g.c) from by ring, hc]
  refine ⟨?_, rfl, ?_, ?_⟩
  · intro ha0
    subst ha0
    rw [hgstart]
    unfold startFromEq
    rw [if_pos rfl]
    split_ifs with hb0
    · exact Or.inl rfl
    · exact Or.inr rfl
  · rintro ha0 ⟨r0, hr0⟩
    have hroot : |r0| * |r0| = b * b - 4 * a * c := by
      rw [abs_mul_abs_self]
      exact hr0
    have h0 : (0 : ℚ) ≤ |r0| := abs_nonneg r0
    have hroot' : |r0| * |r0| = -b * -b - 4 * -a * -c := by
      linear_combination hroot
    have h2a : 2 * a ≠ 0 := mul_ne_zero (by norm_num) ha0
    have h2a' : 2 * -a ≠ 0 := mul_ne_zero (by norm_num) (neg_ne_zero.mpr ha0)
    have hs1 := startFromEq_roots ha0 h0 hroot
    have hs2 := startFromEq_roots (neg_ne_zero.mpr ha0) h0 hroot'
    have he1' : (-(-b) - |r0|) / (2 * -a) = (-b + |r0|) / (2 * a) := by
      rw [div_eq_div_iff h2a' h2a]
      ring
    have he2' : (-(-b) + |r0|) / (2 * -a) = (-b - |r0|) / (2 * a) := by
      rw [div_eq_div_iff h2a' h2a]
      ring
    rw [he1', he2'] at hs2
    have hq1 := quad_root_low ha0 hroot
    have hq2 := quad_root_high ha0 hroot
    rcases ha0.lt_or_lt with hneg | hpos
    · -- a < 0: start is the min root, end the max root
      refine ⟨min ((-b - |r0|) / (2 * a)) ((-b + |r0|) / (2 * a)),
        max ((-b - |r0|) / (2 * a)) ((-b + |r0|) / (2 * a)), ?_, ?_, ?_, ?_, ?_, ?_⟩
      · rw [hgstart, hs1, if_neg (not_lt.mpr hneg.le)]
      · rw [hgend, hs2, if_pos (by rwa [neg_pos]), max_comm]
      · rcases min_choice ((-b - |r0|) / (2 * a)) ((-b + |r0|) / (2 * a)) with hm | hm
        · rw [hm]; exact hq1
        · rw [hm]; exact hq2
      · rcases max_choice ((-b - |r0|) / (2 * a)) ((-b + |r0|) / (2 * a)) with hm | hm
        · rw [hm]; exact hq1
        · rw [hm]; exact hq2
      · intro h'
        exact absurd h' (not_lt.mpr hneg.le)
      · intro _ s hs
        rcases quad_root_only ha0 hroot hs with rfl | rfl
        · exact ⟨min_le_left _ _, le_max_left _ _⟩
        · exact ⟨min_le_right _ _, le_max_right _ _⟩
    · -- a > 0: start is the max root, end the min root
      refine ⟨max ((-b - |r0|) / (2 * a)) ((-b + |r0|) / (2 * a)),
        min ((-b - |r0|) / (2 * a)) ((-b + |r0|) / (2 * a)), ?_, ?_, ?_, ?_, ?_, ?_⟩
      · rw [hgstart, hs1, if_pos hpos]
      · rw [hgend, hs2, if_neg (by rw [neg_pos]; exact not_lt.mpr hpos.le), min_comm]
      · rcases max_choice ((-b - |r0|) / (2 * a)) ((-b + |r0|) / (2 * a)) with hm | hm
        · rw [hm]; exact hq1
        · rw [hm]; exact hq2
      · rcases min_choice ((-b - |r0|) / (2 * a)) ((-b + |r0|) / (2 * a)) with hm | hm
        · rw [hm]; exact hq1
        · rw [hm]; exact hq2
      · intro _ s hs
        rcases quad_root_only ha0 hroot hs with rfl | rfl
        · exact ⟨le_max_left _ _, min_le_left _ _⟩
        · exact ⟨le_max_right _ _, min_le_right _ _⟩
      · intro h'
        exact absurd h' (not_lt.mpr hpos.le)
  · intro ha0 hno
    constructor
    · rw [hgstart]
      unfold startFromEq
      rw [if_neg ha0, ratSqrt_eq_none hno]
    · rw [hgend]
      unfold startFromEq
      rw [if_neg (neg_ne_zero.mpr ha0)]
      have hno' : ¬ ∃ r : ℚ, r * r = -b * -b - 4 * -a * -c := by
        rw [show -b * -b - 4 * -a * -c = b * b - 4 * a * c from by ring]
        exact hno
      rw [ratSqrt_eq_none hno']

/-- The unit half circle, `H.half_circle(0, 1)`, has Klein triple `(0, 0, 2)`
and is valid. -/
theorem validHalfCircleKlein : HyperbolicGeodesic.isValid ⟨0, 0, 2⟩ := by
  norm_num [HyperbolicGeodesic.isValid]

/-- The half-plane equation of the unit half circle. -/
theorem eqHalfCircle :
    HyperbolicGeodesic.equationHalfPlane ⟨0, 0, 2⟩ = ((2 : ℚ), (0 : ℚ), (-2 : ℚ)) := by
  norm_num [HyperbolicGeodesic.equationHalfPlane]

/-- The fact `2 ≠ 0` over the base field. -/
theorem twoNeZeroQ : (2 : ℚ) ≠ 0 := two_ne_zero

/-- The discriminant of the unit half circle has the exact square root 4. -/
theorem discHasRoot : ∃ r : ℚ, r * r = 0 * 0 - 4 * 2 * (-2) := ⟨4, by norm_num⟩

theorem geodesic_start_end_spec_witness :
    HyperbolicGeodesic.isValid ⟨0, 0, 2⟩
    ∧ HyperbolicGeodesic.equationHalfPlane ⟨0, 0, 2⟩ = ((2 : ℚ), (0 : ℚ), (-2 : ℚ))
    ∧ (2 : ℚ) ≠ 0
    ∧ (∃ r : ℚ, r * r = 0 * 0 - 4 * 2 * (-2))
    ∧ (∃ R R', HyperbolicGeodesic.start ⟨0, 0, 2⟩ = .ok (.num R)
        ∧ HyperbolicGeodesic.end' ⟨0, 0, 2⟩ = .ok (.num R')
        ∧ 2 * R * R + 0 * R + (-2) = 0 ∧ 2 * R' * R' + 0 * R' + (-2) = 0
        ∧ (0 < (2 : ℚ) → ∀ s, 2 * s * s + 0 * s + (-2) = 0 → s ≤ R ∧ R' ≤ s)
        ∧ ((2 : ℚ) < 0 → ∀ s, 2 * s * s + 0 * s + (-2) = 0 → R ≤ s ∧ s ≤ R')) :=
  ⟨validHalfCircleKlein, eqHalfCircle, twoNeZeroQ, discHasRoot,
    (geodesic_start_end_spec ⟨0, 0, 2⟩ validHalfCircleKlein 2 0 (-2)
      eqHalfCircle).2.2.1 twoNeZeroQ discHasRoot⟩

/-- Embeds `HyperbolicGeodesic.left_half_space`: the closed half space to the left
of the oriented geodesic. -/
def HyperbolicGeodesic.leftHalfSpace (g : HyperbolicGeodesic) : HyperbolicHalfSpace :=
  ⟨g⟩

/-- Embeds `HyperbolicGeodesic.right_half_space`: `(-g).left_half_space()`. -/
def HyperbolicGeodesic.rightHalfSpace (g : HyperbolicGeodesic) : HyperbolicHalfSpace :=
  ⟨g.neg⟩

/-- Embeds `HyperbolicGeodesic._half_spaces`: the merge of the singleton lists of
the left and the right half space. -/
def HyperbolicGeodesic.halfSpaces (g : HyperbolicGeodesic) : List HyperbolicHalfSpace :=
  mergeSort [[g.leftHalfSpace], [g.rightHalfSpace]]

/-- Embeds `HyperbolicPoint._half_spaces`: three half spaces pinning a finite point,
two half spaces pinning an ideal point. -/
def HyperbolicPoint.halfSpaces (p : HyperbolicPoint) : List HyperbolicHalfSpace :=
  if p.x * p.x + p.y * p.y < 1 then
    mergeSort [[⟨⟨-p.x, 1, 0⟩⟩], [⟨⟨-p.y, 0, 1⟩⟩], [⟨⟨p.x + p.y, -1, -1⟩⟩]]
  else
    mergeSort [[⟨⟨0, -p.y, p.x⟩⟩], [⟨⟨-p.x * p.x - p.y * p.y, p.y + p.x, p.y - p.x⟩⟩]]

/-- Embeds `HyperbolicEdge._half_spaces`: the geodesic's two half spaces, with a
half space bounding the start appended (normal `(c, -b)`) and a half space
bounding the end appended (normal `(-c, b)`); the Python appends them to the
end of the list without re-sorting. -/
def edgeHalfSpaces (g : HyperbolicGeodesic) (s e : Option HyperbolicPoint) :
    List HyperbolicHalfSpace :=
  let hs := g.halfSpaces
  let hs' := match s with
    | none => hs
    | some p => hs ++ [⟨⟨-(g.c * p.x) + g.b * p.y, g.c, -g.b⟩⟩]
  match e with
  | none => hs'
  | some p => hs' ++ [⟨⟨g.c * p.x - g.b * p.y, -g.c, g.b⟩⟩]

/-- The closed variant type of convex subsets handled by
`HyperbolicPlane.intersection`. -/
inductive HyperbolicConvexSet where
  | emptySet
  | point (p : HyperbolicPoint)
  | geodesic (g : HyperbolicGeodesic)
  | halfSpace (h : HyperbolicHalfSpace)
  | edge (g : HyperbolicGeodesic) (s e : Option HyperbolicPoint)
  | polygon (l : List HyperbolicHalfSpace)

/-- The dispatch of `subset._half_spaces()` performed by
`HyperbolicPlane.intersection`.  `HyperbolicEmptySet` does not override the
base-class method, which raises `NotImplementedError("Convex sets must
implement this method.")`; `HyperbolicConvexPolygon.__init__` stores the list
under the attribute name `_half_spaces`, shadowing the method of the same
name, so calling `polygon._half_spaces()` raises `TypeError` (a list is not
callable). -/
def halfSpacesOf : HyperbolicConvexSet →
    Except HyperbolicError (List HyperbolicHalfSpace)
  | .emptySet => .error .notImplementedHalfSpaces
  | .point p => .ok p.halfSpaces
  | .geodesic g => .ok g.halfSpaces
  | .halfSpace h => .ok [h]
  | .edge g s e => .ok (edgeHalfSpaces g s e)
  | .polygon _ => .error .typeErrorNotCallable

/-- The front end of `HyperbolicPlane.intersection`: collect each operand's
`_half_spaces()` and merge the lists; the reduction pipeline operates on the
merged list on success. -/
def intersectionHalfSpaces (subsets : List HyperbolicConvexSet) :
    Except HyperbolicError (List HyperbolicHalfSpace) :=
  (subsets.mapM halfSpacesOf).map mergeSort

/-- Claim C1 (failing input): the collection consisting of the empty set —
one of the kinds the claim quantifies over — makes `intersection` raise
`NotImplementedError` from the base class `_half_spaces` instead of
returning a convex-set value, and any collection containing a polygon makes
it raise `TypeError` because the polygon's `_half_spaces` method is shadowed
by the stored list. -/
theorem intersection_empty_set_not_implemented :
    intersectionHalfSpaces [HyperbolicConvexSet.emptySet]
      = .error .notImplementedHalfSpaces
    ∧ ∀ l, intersectionHalfSpaces [HyperbolicConvexSet.polygon l]
      = .error .typeErrorNotCallable :=
  ⟨rfl, fun _ => rfl⟩

/-- Claim C2 (failing input): the half-space list of the segment
`H.segment(H.vertical(0), end=H(I))` — the vertical geodesic `x = 0` with the
finite end point `i` (Klein coordinates `(0, 0)`) — is the geodesic's two
half spaces followed by the appended end half space, and it is not sorted
with respect to `_normal_lt`: the appended half space has a left-pointing
normal and therefore sorts before the geodesic's right half space. -/
theorem segment_half_spaces_unsorted :
    edgeHalfSpaces ⟨0, -1, 0⟩ none (some ⟨0, 0⟩)
      = [⟨⟨0, -1, 0⟩⟩, ⟨⟨0, 1, 0⟩⟩, ⟨⟨0 * 0 - -1 * 0, -0, -1⟩⟩]
    ∧ ¬ sortedHS (edgeHalfSpaces ⟨0, -1, 0⟩ none (some ⟨0, 0⟩)) := by
  have hlt : normalLt (⟨⟨0, -1, 0⟩⟩ : HyperbolicHalfSpace) ⟨⟨0, 1, 0⟩⟩ = true := by
    norm_num [normalLt, normalPointsLeft, slopeCmp, offsetCmp, ratSign]
  have hlist : edgeHalfSpaces ⟨0, -1, 0⟩ none (some ⟨0, 0⟩)
      = [⟨⟨0, -1, 0⟩⟩, ⟨⟨0, 1, 0⟩⟩, ⟨⟨0 * 0 - -1 * 0, -0, -1⟩⟩] := by
    unfold edgeHalfSpaces HyperbolicGeodesic.halfSpaces
    dsimp only
    rw [mergeSort]
    unfold merge2
    unfold HyperbolicGeodesic.leftHalfSpace HyperbolicGeodesic.rightHalfSpace
      HyperbolicGeodesic.neg
    dsimp only
    rw [show ((⟨⟨0, -1, 0⟩⟩ : HyperbolicHalfSpace) :: []).reverse
        = [⟨⟨0, -1, 0⟩⟩] from rfl]
    rw [show ((⟨⟨-0, - -1, -0⟩⟩ : HyperbolicHalfSpace) :: []).reverse
        = [⟨⟨-0, - -1, -0⟩⟩] from rfl]
    rw [mergeDesc]
    rw [show normalLt (⟨⟨0, -1, 0⟩⟩ : HyperbolicHalfSpace) ⟨⟨-0, - -1, -0⟩⟩
        = true from by norm_num [normalLt, normalPointsLeft, slopeCmp, offsetCmp,
          ratSign]]
    rw [if_pos rfl]
    rw [show mergeDesc [(⟨⟨0, -1, 0⟩⟩ : HyperbolicHalfSpace)] [] = [⟨⟨0, -1, 0⟩⟩]
        from by simp [mergeDesc]]
    norm_num
  refine ⟨hlist, ?_⟩
  rw [hlist]
  intro hs
  unfold sortedHS at hs
  rw [List.chain'_cons, List.chain'_cons] at hs
  have h2 := hs.2.1
  rw [show normalLt (⟨⟨0 * 0 - -1 * 0, -0, -1⟩⟩ : HyperbolicHalfSpace) ⟨⟨0, 1, 0⟩⟩
      = true from by norm_num [normalLt, normalPointsLeft, slopeCmp, offsetCmp,
        ratSign]] at h2
  exact absurd h2 (by simp)
